import Mathlib

/-!
Verification of the long-document chunked-evaluation pipeline of the
SystemicInvestingEvaluation repository.

The development shallowly embeds the Python sources:
  * `doc_assistant/document_processor.py` — `split_text` (the Chunker) and
    `process_long_document` (the Chunk Aggregator including the per-row table
    parse loop and the recursive summarization pass);
  * the module-level markdown-table parse loop of `pages/1_Evaluate.py`
    (the single-document Table Parser);
  * the rename handler of `pages/3_Manage Cases.py` (the Case Store).

Python string builtins (`str.split`, `str.join`, `str.strip`, `str.rstrip`,
`str.startswith`, `str.replace`) are modelled by structurally recursive
functions over `List Char` so that every definition evaluates by kernel
reduction.  Python `float` values arising from `float(cell)` on decimal
literals are modelled exactly as signed decimal fractions (`PyVal`): an
integer numerator over a power-of-ten denominator kept in lowest
power-of-ten terms, compared by integer cross-multiplication; on the
one-decimal scores of this pipeline this is order- and value-faithful.
Raised Python exceptions are modelled by `Except String`.
-/

/-! ## Python string primitives, modelled structurally -/

/-- Model of Python `s.split(c)` at the character-list level: splits on every
occurrence of `c`; always returns at least one (possibly empty) group. -/
def splitChar (c : Char) : List Char → List (List Char)
  | [] => [[]]
  | x :: xs =>
    match splitChar c xs with
    | [] => [[]]
    | g :: gs => if x = c then [] :: g :: gs else (x :: g) :: gs

/-- Model of Python `s.split(sep)` for a one-character separator. -/
def pySplit (c : Char) (s : String) : List String :=
  (splitChar c s.data).map String.mk

/-- Model of Python `sep.join(l)`. -/
def pyJoin (sep : String) : List String → String
  | [] => ""
  | [x] => x
  | x :: y :: rest => x ++ sep ++ pyJoin sep (y :: rest)

/-- Whitespace test used by Python `str.strip` / `str.rstrip` (ASCII range). -/
def pySpace (c : Char) : Bool :=
  c = ' ' || c = '\t' || c = '\n' || c = '\r' || c = '\x0b' || c = '\x0c'

/-- Model of Python `s.strip()` on the character list. -/
def stripChars (l : List Char) : List Char :=
  ((l.dropWhile pySpace).reverse.dropWhile pySpace).reverse

/-- Model of Python `s.strip()`. -/
def pyStrip (s : String) : String :=
  String.mk (stripChars s.data)

/-- Model of Python `s.rstrip()`. -/
def pyRstrip (s : String) : String :=
  String.mk ((s.data.reverse.dropWhile pySpace).reverse)

/-- Model of Python `s.startswith(p)`. -/
def pyStartsWith (p s : String) : Bool :=
  s.data.take p.data.length == p.data

/-- Model of Python `s.replace(c, t)` for a one-character pattern. -/
def pyReplaceChar (c : Char) (t : String) (s : String) : String :=
  String.mk (s.data.flatMap (fun x => if x = c then t.data else [x]))

/-! ## Python float values parsed from decimal score cells -/

/-- Value of a digit string, most significant digit first. -/
def digitsVal (l : List Char) : Nat :=
  l.foldl (fun a c => 10 * a + (c.toNat - 48)) 0

/-- Exact value of a Python float parsed from a decimal literal:
`num / 10 ^ pow`, kept in lowest power-of-ten terms (trailing zero digits of
the fractional part are stripped on parse), so that structural equality
coincides with value equality of the parsed floats. -/
structure PyVal where
  num : Int
  pow : Nat
deriving DecidableEq

/-- Value order on `PyVal` by integer cross-multiplication. -/
def PyVal.le (a b : PyVal) : Prop :=
  a.num * 10 ^ b.pow ≤ b.num * 10 ^ a.pow

instance (a b : PyVal) : Decidable (PyVal.le a b) := by
  unfold PyVal.le; infer_instance

/-- Strict value order on `PyVal`, as the Boolean test Python `max` uses. -/
def PyVal.blt (a b : PyVal) : Bool :=
  decide (a.num * 10 ^ b.pow < b.num * 10 ^ a.pow)

/-- Trailing zeros stripped from a fractional digit string. -/
def stripTrailingZeros (l : List Char) : List Char :=
  (l.reverse.dropWhile (fun c => c = '0')).reverse

/-- Digit-string test (`0` – `9`). -/
def allDigits (l : List Char) : Bool :=
  l.all (fun c => c.isDigit)

/-- Unsigned part of `float(s)` on a decimal literal: digits with at most one
dot and at least one digit in total. -/
def parseUnsignedFloat (l : List Char) : Option PyVal :=
  match splitChar '.' l with
  | [ip] =>
    if allDigits ip && !ip.isEmpty then some ⟨digitsVal ip, 0⟩ else none
  | [ip, fp] =>
    if allDigits ip && allDigits fp && !(ip.isEmpty && fp.isEmpty) then
      let fp' := stripTrailingZeros fp
      some ⟨digitsVal (ip ++ fp'), fp'.length⟩
    else none
  | _ => none

/-- Model of Python `float(s)` restricted to decimal literals (optional sign,
optional surrounding whitespace); any other cell content — such as the
literal cell value N/A — fails to parse, which in the source raises
`ValueError`. -/
def parsePyFloat (s : String) : Option PyVal :=
  match stripChars s.data with
  | '-' :: r => (parseUnsignedFloat r).map (fun v => ⟨-v.num, v.pow⟩)
  | '+' :: r => parseUnsignedFloat r
  | r => parseUnsignedFloat r

/-- Model of Python `max(l)` on a nonempty list: keeps the current value
unless a later element is strictly greater.  (Python `max([])` raises; the
source guards every call with a nonemptiness filter.) -/
def pyListMax : List PyVal → PyVal
  | [] => ⟨0, 0⟩
  | x :: rest => rest.foldl (fun acc y => if acc.blt y then y else acc) x

/-! ## The Chunker: `DocumentProcessor.split_text` -/

/-- Loop body of `split_text`: accumulates lines into `current` whose summed
token count is `tokenCount`; flushes `current` when appending the next line
would exceed `maxTokens` and `current` is nonempty. -/
def splitLoop (tok : String → Nat) (maxTokens : Nat) :
    List String → List String → Nat → List (List String)
  | [], current, _ => if current.isEmpty then [] else [current]
  | line :: rest, current, tokenCount =>
    if tokenCount + tok line > maxTokens ∧ ¬current.isEmpty then
      current :: splitLoop tok maxTokens rest [line] (tok line)
    else
      splitLoop tok maxTokens rest (current ++ [line]) (tokenCount + tok line)

/-- Embedding of DocumentProcessor.split_text: split the text into lines, group them by
the token budget, and join each group back with the line separator.  The
tokenizer (the length of the encoding of a line in the source) is an
abstract parameter. -/
def split_text (tok : String → Nat) (maxTokens : Nat) (text : String) :
    List String :=
  (splitLoop tok maxTokens (pySplit '\n' text) [] 0).map (pyJoin ("\n"))

/-- Token count of a block as the source measures it: the sum of the token
counts of its lines. -/
def blockTokens (tok : String → Nat) (b : String) : Nat :=
  ((pySplit '\n' b).map tok).sum

/-! ## The Chunk Aggregator: `DocumentProcessor.process_long_document`

The embedding starts from the `table` field of each chunk's evaluation
result (the table field of each chunk dictionary in the source); the LLM calls that
produce those fields are the Evaluation Client boundary.  Raised exceptions
(`float(...)` on a non-numeric cell, a failed summarization call) are
modelled by `Except.error`. -/

/-- Line filter of the aggregation loop: keep the lines that contain the
pipe delimiter and whose stripped form does not begin with a pipe followed
by two dashes (the separator row). -/
def tableLines (table_md : String) : List String :=
  (pySplit '\n' table_md).filter
    (fun line => line.data.contains '|' && !pyStartsWith ("|--") (pyStrip line))

/-- Cell extraction of one data row: split on the pipe delimiter, drop the
first and last artifact, and strip each remaining cell. -/
def rowCells (row : String) : List String :=
  (((pySplit '|' row).drop 1).dropLast).map pyStrip

/-- One hallmark's parsed (score, justification, indicators) triple. -/
structure ParsedRow where
  hallmark : String
  score : PyVal
  justification : String
  indicators : String
deriving DecidableEq

/-- Row handling of the aggregation loop: a row with fewer than 4 cells is
skipped (`if len(cols) >= 4`); on a row with at least 4 cells,
`float(cols[1])` either yields the score or raises, which aborts the loop
(modelled by `Except.error` carrying the offending row). -/
def parseRow? (row : String) : Except String (Option ParsedRow) :=
  let cols := rowCells row
  if cols.length ≥ 4 then
    match parsePyFloat (cols.getD 1 "") with
    | some q =>
      Except.ok (some ⟨cols.getD 0 "", q, cols.getD 2 "", cols.getD 3 ""⟩)
    | none => Except.error row
  else Except.ok none

/-- The three `defaultdict(list)` accumulators, as insertion-ordered
association lists (Python dicts preserve insertion order). -/
structure AggState where
  scores : List (String × List PyVal)
  justs : List (String × List String)
  inds : List (String × List String)

/-- Lookup in an insertion-ordered association list (first match). -/
def alGet {β : Type} (m : List (String × β)) (k : String) : Option β :=
  (m.find? (fun p => p.1 == k)).map Prod.snd

/-- Python defaultdict-of-list append — appends to the list of an
existing key, or inserts the key at the end with the one-element list. -/
def dictAppend {β : Type} (m : List (String × List β)) (k : String) (v : β) :
    List (String × List β) :=
  if (m.find? (fun p => p.1 == k)).isSome then
    m.map (fun p => if p.1 == k then (p.1, p.2 ++ [v]) else p)
  else m ++ [(k, [v])]

/-- Appending one parsed row to all three accumulators, as the loop body
does for `hallmark_scores`, `hallmark_justifications`,
`hallmark_indicators`. -/
def AggState.add (st : AggState) (r : ParsedRow) : AggState :=
  ⟨dictAppend st.scores r.hallmark r.score,
   dictAppend st.justs r.hallmark r.justification,
   dictAppend st.inds r.hallmark r.indicators⟩

/-- Inner row loop over `lines[1:]` of one chunk's table. -/
def processRows (st : AggState) : List String → Except String AggState
  | [] => Except.ok st
  | row :: rest =>
    match parseRow? row with
    | Except.error e => Except.error e
    | Except.ok none => processRows st rest
    | Except.ok (some r) => processRows (st.add r) rest

/-- Per-chunk handling: filter the table lines; `if lines:` compute the
(unused) header and loop over the data rows `lines[1:]`. -/
def processChunk (st : AggState) (table_md : String) : Except String AggState :=
  let lines := tableLines table_md
  if lines.isEmpty then Except.ok st
  else processRows st (lines.drop 1)

/-- Outer loop over all chunk tables. -/
def aggLoop (st : AggState) : List String → Except String AggState
  | [] => Except.ok st
  | t :: ts =>
    match processChunk st t with
    | Except.error e => Except.error e
    | Except.ok st2 => aggLoop st2 ts

/-- Accumulator state after all chunks, starting from empty dictionaries. -/
def aggState? (tables : List String) : Except String AggState :=
  aggLoop ⟨[], [], []⟩ tables

/-- Dictionary final_scores of the source: the maximum of each hallmark
score list, keeping only hallmarks whose list is nonempty. -/
def finalScoresOf (st : AggState) : List (String × PyVal) :=
  (st.scores.filter (fun p => !p.2.isEmpty)).map (fun p => (p.1, pyListMax p.2))

/-- Dictionary final_justifications of the source before summarization: each
hallmark justification list joined with a single space. -/
def preJusts (st : AggState) : List (String × String) :=
  st.justs.map (fun p => (p.1, pyJoin (" ") p.2))

/-- Dictionary final_indicators of the source before summarization: each
hallmark indicator list joined with a single space. -/
def preInds (st : AggState) : List (String × String) :=
  st.inds.map (fun p => (p.1, pyJoin (" ") p.2))

/-- Shape of one summarization response as the source inspects it:
a dictionary response carrying a table key contributes that field, and any
other response contributes its string form. -/
inductive Summary where
  | tableDict (table : String)
  | raw (s : String)
deriving DecidableEq

/-- The text the loop stores for a response. -/
def Summary.text : Summary → String
  | Summary.tableDict t => t
  | Summary.raw s => s

/-- Summarization prompt for one hallmark's concatenated justifications. -/
def justPrompt (h txt : String) : String :=
  "Please summarize the evaluation reasons for " ++ h ++
    " in a concise manner: \n" ++ txt

/-- Summarization prompt for one hallmark's concatenated indicators. -/
def indPrompt (h txt : String) : String :=
  "Please summarize the suggested indicators for " ++ h ++
    " in a concise manner: \n" ++ txt

/-- One summarization pass (`for h in final_justifications: ... =
llm_service.get_evaluation(prompt) ...`): each entry's text is replaced by
the client's response; a raised client exception propagates and aborts the
whole call. -/
def summarizeAll (client : String → Except String Summary)
    (mkPrompt : String → String → String) :
    List (String × String) → Except String (List (String × String))
  | [] => Except.ok []
  | (h, txt) :: rest =>
    match client (mkPrompt h txt) with
    | Except.error e => Except.error e
    | Except.ok s =>
      match summarizeAll client mkPrompt rest with
      | Except.error e => Except.error e
      | Except.ok r => Except.ok ((h, s.text) :: r)

/-- Aggregation-and-summarization phase of
`DocumentProcessor.process_long_document`, from the chunk tables onward:
parse every chunk's table rows into the three accumulators, compute the
max-score map and the space-joined justification/indicator maps, then
summarize justifications and indicators through the Evaluation Client.
Returns the triple `(final_scores, final_justifications,
final_indicators)`; any raised exception is the `Except.error` case. -/
def process_long_document (client : String → Except String Summary)
    (tables : List String) :
    Except String
      (List (String × PyVal) × List (String × String) × List (String × String)) :=
  match aggState? tables with
  | Except.error e => Except.error e
  | Except.ok st =>
    match summarizeAll client justPrompt (preJusts st) with
    | Except.error e => Except.error e
    | Except.ok fj =>
      match summarizeAll client indPrompt (preInds st) with
      | Except.error e => Except.error e
      | Except.ok fi => Except.ok (finalScoresOf st, fj, fi)

/-! ### Declarative description of the parsed rows -/

/-- Data rows of one chunk's table (everything after the first kept line). -/
def dataRows (table_md : String) : List String :=
  (tableLines table_md).drop 1

/-- All data rows of a batch of chunk tables, in chunk-processing order. -/
def rowsOfChunks (tables : List String) : List String :=
  tables.flatMap dataRows

/-- The parsed row a data row contributes, if any. -/
def parsedOf (row : String) : Option ParsedRow :=
  match parseRow? row with
  | Except.ok (some r) => some r
  | _ => none

/-- All successfully parsed rows of a batch, in chunk-processing order. -/
def okRows (tables : List String) : List ParsedRow :=
  (rowsOfChunks tables).filterMap parsedOf

/-- Scores collected for one hallmark, in chunk-processing order. -/
def scoresFor (h : String) (rs : List ParsedRow) : List PyVal :=
  (rs.filter (fun r => r.hallmark == h)).map (fun r => r.score)

/-- Justifications collected for one hallmark, in chunk-processing order. -/
def justsFor (h : String) (rs : List ParsedRow) : List String :=
  (rs.filter (fun r => r.hallmark == h)).map (fun r => r.justification)

/-- Indicators collected for one hallmark, in chunk-processing order. -/
def indsFor (h : String) (rs : List ParsedRow) : List String :=
  (rs.filter (fun r => r.hallmark == h)).map (fun r => r.indicators)

/-! ## The single-document Table Parser (module-level loop of the
Evaluate page) -/

/-- Kept lines of the Evaluate page parser: the lines whose stripped form is
nonempty, each taken right-stripped. -/
def keptLines (table_md : String) : List String :=
  ((pySplit '\n' table_md).filter
    (fun line => !(pyStrip line).data.isEmpty)).map pyRstrip

/-- Raw cells of one buffered logical row: join the buffered lines, split on
the delimiter, drop the leading and trailing artifacts, strip each cell and
replace embedded line breaks. -/
def rawCells (buffer : List String) : List String :=
  ((((pySplit '|' (pyJoin ("\n") buffer)).drop 1).dropLast).map pyStrip).map
    (pyReplaceChar '\n' ("; "))

/-- Flush of one buffered row: pad with empty cells up to the header width
or truncate down to it, and keep the row only if some cell is nonempty. -/
def flushRow (header : List String) (buffer : List String) :
    Option (List String) :=
  let cols := rawCells buffer
  let cols' :=
    if cols.length < header.length then
      cols ++ List.replicate (header.length - cols.length) ("")
    else if cols.length > header.length then
      cols.take header.length
    else cols
  if cols'.any (fun c => !c.data.isEmpty) then some cols' else none

/-- Buffered parse loop over the data lines: a line starting with the
delimiter flushes the buffer and starts a new logical row; any other line is
accumulated into the current buffer; the final buffer is flushed at the
end. -/
def parseLoop (header : List String) :
    List String → List String → List (List String)
  | [], buffer =>
    if buffer.isEmpty then [] else (flushRow header buffer).toList
  | line :: rest, buffer =>
    if pyStartsWith ("|") line then
      (if buffer.isEmpty then [] else (flushRow header buffer).toList) ++
        parseLoop header rest [line]
    else parseLoop header rest (buffer ++ [line])

/-- The Evaluate page's table parse: header from the first kept line, the
separator line skipped (`lines[2:]`), then the buffered row loop.  `none`
models the `IndexError` raised when the table has no kept lines. -/
def parseTable (table_md : String) :
    Option (List String × List (List String)) :=
  match keptLines table_md with
  | [] => none
  | l0 :: rest =>
    let header := (((pySplit '|' l0).drop 1).dropLast).map pyStrip
    some (header, parseLoop header (rest.drop 1) [])

/-! ## The Case Store rename handler (Manage Cases page) -/

/-- One persisted case record, with its score mapping, table_html and
upload_time fields. -/
structure CaseRecord where
  score : List (String × PyVal)
  table_html : String
  upload_time : String
deriving DecidableEq

/-- The rename handler: with a new name different from the selected one and
not already present, `cache[new_name] = cache.pop(selected_case)`; the two
error branches leave the store unchanged.  (The selected case always exists
in the store — it is chosen from its keys — so the fallthrough of the `pop`
is unreachable.) -/
def renameCase (cache : List (String × CaseRecord)) (selected newName : String) :
    List (String × CaseRecord) :=
  if newName ≠ selected then
    if (alGet cache newName).isSome then cache
    else
      match alGet cache selected with
      | some r => cache.filter (fun p => !(p.1 == selected)) ++ [(newName, r)]
      | none => cache
  else cache

/-! ## Association-list lemmas -/

theorem find?_map_keyfix {β γ : Type} (f : String × β → String × γ)
    (hf : ∀ p, (f p).1 = p.1) (q : String → Bool) :
    ∀ m : List (String × β),
      (m.map f).find? (fun p => q p.1) = (m.find? (fun p => q p.1)).map f
  | [] => rfl
  | p :: ps => by
    by_cases hq : q p.1
    · rw [List.map_cons,
        @List.find?_cons_of_pos _ (fun r => q r.1) (f p) (ps.map f)
          (by simpa [hf p] using hq),
        @List.find?_cons_of_pos _ (fun r => q r.1) p ps hq]
      rfl
    · rw [List.map_cons,
        @List.find?_cons_of_neg _ (fun r => q r.1) (f p) (ps.map f)
          (by simpa [hf p] using hq),
        @List.find?_cons_of_neg _ (fun r => q r.1) p ps hq,
        find?_map_keyfix f hf q ps]

theorem alGet_map_vals {β γ : Type} (m : List (String × β)) (f : β → γ)
    (k : String) :
    alGet (m.map (fun p => (p.1, f p.2))) k = (alGet m k).map f := by
  unfold alGet
  rw [find?_map_keyfix (fun p => (p.1, f p.2)) (fun p => rfl) (fun s => s == k) m]
  cases m.find? (fun p => p.1 == k) <;> rfl

theorem alGet_dictAppend_self {β : Type} (m : List (String × List β))
    (k : String) (v : β) :
    alGet (dictAppend m k v) k = some ((alGet m k).getD [] ++ [v]) := by
  unfold dictAppend
  by_cases hs : (m.find? (fun p => p.1 == k)).isSome
  · rw [if_pos hs]
    unfold alGet
    rw [find?_map_keyfix (fun p => if p.1 == k then (p.1, p.2 ++ [v]) else p)
      (fun p => by by_cases h : p.1 == k <;> simp [h]) (fun s => s == k) m]
    obtain ⟨p, hp⟩ := Option.isSome_iff_exists.mp hs
    have hpk : p.1 = k := by simpa using List.find?_some hp
    simp [hp, hpk]
  · rw [if_neg hs]
    have hnone : m.find? (fun p => p.1 == k) = none :=
      Option.not_isSome_iff_eq_none.mp hs
    unfold alGet
    rw [List.find?_append, hnone]
    simp

theorem alGet_dictAppend_ne {β : Type} (m : List (String × List β))
    (k : String) (v : β) (k' : String) (h : k' ≠ k) :
    alGet (dictAppend m k v) k' = alGet m k' := by
  unfold dictAppend
  by_cases hs : (m.find? (fun p => p.1 == k)).isSome
  · rw [if_pos hs]
    unfold alGet
    rw [find?_map_keyfix (fun p => if p.1 == k then (p.1, p.2 ++ [v]) else p)
      (fun p => by by_cases hk : p.1 == k <;> simp [hk]) (fun s => s == k') m]
    cases hf : m.find? (fun p => p.1 == k') with
    | none => rfl
    | some p =>
      have hpk : p.1 = k' := by simpa using List.find?_some hf
      have hne : p.1 ≠ k := by rw [hpk]; exact h
      simp [hne]
  · rw [if_neg hs]
    unfold alGet
    rw [List.find?_append]
    have : ([(k, [v])].find? (fun p => p.1 == k')) = none := by
      simp [List.find?, (@beq_iff_eq String _ _ k k').ne.mpr (Ne.symm h)]
    rw [this]
    cases m.find? (fun p => p.1 == k') <;> rfl

theorem alGet_foldl_dictAppend_some {β : Type} (key : ParsedRow → String)
    (val : ParsedRow → β) :
    ∀ (rs : List ParsedRow) (m : List (String × List β)) (h : String)
      (l : List β), alGet m h = some l →
      alGet (rs.foldl (fun m r => dictAppend m (key r) (val r)) m) h
        = some (l ++ (rs.filter (fun r => key r == h)).map val)
  | [], m, h, l, hm => by simpa using hm
  | r :: rs, m, h, l, hm => by
    rw [List.foldl_cons]
    by_cases hk : key r == h
    · have hk' : key r = h := beq_iff_eq.mp hk
      have step : alGet (dictAppend m (key r) (val r)) h
          = some (l ++ [val r]) := by
        rw [hk', alGet_dictAppend_self, hm]; rfl
      rw [alGet_foldl_dictAppend_some key val rs _ h (l ++ [val r]) step]
      simp [hk]
    · have step : alGet (dictAppend m (key r) (val r)) h = some l := by
        rw [alGet_dictAppend_ne _ _ _ _ (fun hh => hk (beq_iff_eq.mpr hh.symm))]
        exact hm
      rw [alGet_foldl_dictAppend_some key val rs _ h l step]
      simp [hk]

theorem alGet_foldl_dictAppend_none {β : Type} (key : ParsedRow → String)
    (val : ParsedRow → β) :
    ∀ (rs : List ParsedRow) (m : List (String × List β)) (h : String),
      alGet m h = none →
      alGet (rs.foldl (fun m r => dictAppend m (key r) (val r)) m) h
        = if ((rs.filter (fun r => key r == h)).map val).isEmpty then none
          else some ((rs.filter (fun r => key r == h)).map val)
  | [], m, h, hm => by simpa using hm
  | r :: rs, m, h, hm => by
    rw [List.foldl_cons]
    by_cases hk : key r == h
    · have hk' : key r = h := beq_iff_eq.mp hk
      have step : alGet (dictAppend m (key r) (val r)) h
          = some [val r] := by
        rw [hk', alGet_dictAppend_self, hm]; rfl
      rw [alGet_foldl_dictAppend_some key val rs _ h [val r] step]
      simp [hk]
    · have step : alGet (dictAppend m (key r) (val r)) h = none := by
        rw [alGet_dictAppend_ne _ _ _ _ (fun hh => hk (beq_iff_eq.mpr hh.symm))]
        exact hm
      rw [alGet_foldl_dictAppend_none key val rs _ h step]
      simp [hk]

theorem dictAppend_vals_ne {β : Type} (m : List (String × List β))
    (k : String) (v : β) (hm : ∀ p ∈ m, p.2 ≠ []) :
    ∀ p ∈ dictAppend m k v, p.2 ≠ [] := by
  unfold dictAppend
  by_cases hs : (m.find? (fun p => p.1 == k)).isSome
  · rw [if_pos hs]
    intro p hp
    obtain ⟨q, hq, hqp⟩ := List.mem_map.mp hp
    by_cases hk : q.1 == k
    · rw [← hqp]; simp [hk]
    · rw [← hqp]; simp only [hk]; simpa using hm q hq
  · rw [if_neg hs]
    intro p hp
    rcases List.mem_append.mp hp with h1 | h2
    · exact hm p h1
    · have : p = (k, [v]) := by simpa using h2
      rw [this]; simp

theorem foldl_dictAppend_vals_ne {β : Type} (key : ParsedRow → String)
    (val : ParsedRow → β) :
    ∀ (rs : List ParsedRow) (m : List (String × List β)),
      (∀ p ∈ m, p.2 ≠ []) →
      ∀ p ∈ rs.foldl (fun m r => dictAppend m (key r) (val r)) m, p.2 ≠ []
  | [], m, hm => by simpa using hm
  | r :: rs, m, hm => by
    rw [List.foldl_cons]
    exact foldl_dictAppend_vals_ne key val rs _
      (dictAppend_vals_ne m (key r) (val r) hm)

theorem alGet_isSome_iff {β : Type} (m : List (String × β)) (k : String) :
    (alGet m k).isSome ↔ k ∈ m.map Prod.fst := by
  unfold alGet
  have hmap : ∀ z : Option (String × β), (Option.map Prod.snd z).isSome = z.isSome :=
    fun z => by cases z <;> rfl
  rw [hmap, List.find?_isSome]
  constructor
  · rintro ⟨p, hp, hpk⟩
    exact List.mem_map.mpr ⟨p, hp, beq_iff_eq.mp hpk⟩
  · intro hk
    obtain ⟨p, hp, hpk⟩ := List.mem_map.mp hk
    exact ⟨p, hp, beq_iff_eq.mpr hpk⟩

/-! ## Order facts for parsed float values -/

theorem PyVal.le_refl (a : PyVal) : a.le a := le_of_eq rfl

theorem PyVal.le_trans (a b c : PyVal) (h1 : a.le b) (h2 : b.le c) :
    a.le c := by
  unfold PyVal.le at h1 h2 ⊢
  have pa : (0 : Int) < 10 ^ a.pow := pow_pos (by norm_num) _
  have pb : (0 : Int) < 10 ^ b.pow := pow_pos (by norm_num) _
  have pc : (0 : Int) < 10 ^ c.pow := pow_pos (by norm_num) _
  nlinarith [mul_le_mul_of_nonneg_right h1 (le_of_lt pc),
    mul_le_mul_of_nonneg_right h2 (le_of_lt pa)]

theorem PyVal.blt_true_le (a b : PyVal) (h : a.blt b = true) : a.le b := by
  unfold PyVal.blt at h
  unfold PyVal.le
  exact le_of_lt (of_decide_eq_true h)

theorem PyVal.blt_false_le (a b : PyVal) (h : a.blt b = false) : b.le a := by
  unfold PyVal.blt at h
  unfold PyVal.le
  exact le_of_not_lt (of_decide_eq_false h)

theorem pyMaxFold_spec :
    ∀ (l : List PyVal) (acc : PyVal),
      (l.foldl (fun a y => if a.blt y then y else a) acc) ∈ acc :: l ∧
      acc.le (l.foldl (fun a y => if a.blt y then y else a) acc) ∧
      ∀ s ∈ l, s.le (l.foldl (fun a y => if a.blt y then y else a) acc)
  | [], acc => ⟨List.mem_singleton.mpr rfl, PyVal.le_refl acc, by simp⟩
  | y :: ys, acc => by
    rw [List.foldl_cons]
    by_cases hb : acc.blt y
    · rw [if_pos hb]
      obtain ⟨hmem, hacc, hall⟩ := pyMaxFold_spec ys y
      refine ⟨?_, ?_, ?_⟩
      · rcases List.mem_cons.mp hmem with h | h
        · rw [h]; exact List.mem_cons_of_mem _ (List.mem_cons_self _ _)
        · exact List.mem_cons_of_mem _ (List.mem_cons_of_mem _ h)
      · exact PyVal.le_trans _ _ _ (PyVal.blt_true_le _ _ hb) hacc
      · intro s hs
        rcases List.mem_cons.mp hs with h | h
        · rw [h]; exact hacc
        · exact hall s h
    · rw [if_neg hb]
      obtain ⟨hmem, hacc, hall⟩ := pyMaxFold_spec ys acc
      refine ⟨?_, hacc, ?_⟩
      · rcases List.mem_cons.mp hmem with h | h
        · rw [h]; exact List.mem_cons_self _ _
        · exact List.mem_cons_of_mem _ (List.mem_cons_of_mem _ h)
      · intro s hs
        rcases List.mem_cons.mp hs with h | h
        · rw [h]
          exact PyVal.le_trans _ _ _
            (PyVal.blt_false_le _ _ (Bool.not_eq_true _ ▸ hb)) hacc
        · exact hall s h

theorem pyListMax_mem (l : List PyVal) (h : l ≠ []) : pyListMax l ∈ l := by
  cases l with
  | nil => exact absurd rfl h
  | cons x rest =>
    obtain ⟨hmem, _, _⟩ := pyMaxFold_spec rest x
    exact hmem

theorem pyListMax_ge (l : List PyVal) : ∀ s ∈ l, s.le (pyListMax l) := by
  cases l with
  | nil => simp
  | cons x rest =>
    obtain ⟨_, hacc, hall⟩ := pyMaxFold_spec rest x
    intro s hs
    rcases List.mem_cons.mp hs with h | h
    · rw [h]; exact hacc
    · exact hall s h

/-! ## Relating the aggregation loop to the declarative parsed rows -/

theorem foldl_add_scores :
    ∀ (rs : List ParsedRow) (st : AggState),
      (rs.foldl AggState.add st).scores
        = rs.foldl (fun m r => dictAppend m r.hallmark r.score) st.scores
  | [], _ => rfl
  | r :: rs, st => by
    rw [List.foldl_cons, List.foldl_cons]
    exact foldl_add_scores rs (st.add r)

theorem foldl_add_justs :
    ∀ (rs : List ParsedRow) (st : AggState),
      (rs.foldl AggState.add st).justs
        = rs.foldl (fun m r => dictAppend m r.hallmark r.justification) st.justs
  | [], _ => rfl
  | r :: rs, st => by
    rw [List.foldl_cons, List.foldl_cons]
    exact foldl_add_justs rs (st.add r)

theorem foldl_add_inds :
    ∀ (rs : List ParsedRow) (st : AggState),
      (rs.foldl AggState.add st).inds
        = rs.foldl (fun m r => dictAppend m r.hallmark r.indicators) st.inds
  | [], _ => rfl
  | r :: rs, st => by
    rw [List.foldl_cons, List.foldl_cons]
    exact foldl_add_inds rs (st.add r)

theorem processRows_ok :
    ∀ (rows : List String) (st st' : AggState),
      processRows st rows = Except.ok st' →
      st' = (rows.filterMap parsedOf).foldl AggState.add st
  | [], st, st', h => by
    simp only [processRows] at h
    cases h
    rfl
  | row :: rest, st, st', h => by
    simp only [processRows] at h
    cases hp : parseRow? row with
    | error e => rw [hp] at h; cases h
    | ok o =>
      rw [hp] at h
      cases o with
      | none =>
        have hpo : parsedOf row = none := by simp [parsedOf, hp]
        simpa [hpo] using processRows_ok rest st st' h
      | some r =>
        have hpo : parsedOf row = some r := by simp [parsedOf, hp]
        simpa [hpo] using processRows_ok rest (st.add r) st' h

theorem processRows_error :
    ∀ (rows : List String) (st : AggState),
      (∃ row ∈ rows, ∃ e, parseRow? row = Except.error e) →
      ∃ e, processRows st rows = Except.error e
  | [], _, h => by simp at h
  | row :: rest, st, h => by
    obtain ⟨w, hw, e, he⟩ := h
    cases hp : parseRow? row with
    | error e' => exact ⟨e', by simp [processRows, hp]⟩
    | ok o =>
      have hwrest : w ∈ rest := by
        rcases List.mem_cons.mp hw with h1 | h1
        · rw [h1] at he; rw [he] at hp; cases hp
        · exact h1
      cases o with
      | none =>
        obtain ⟨e', he'⟩ := processRows_error rest st ⟨w, hwrest, e, he⟩
        exact ⟨e', by simp [processRows, hp, he']⟩
      | some r =>
        obtain ⟨e', he'⟩ := processRows_error rest (st.add r) ⟨w, hwrest, e, he⟩
        exact ⟨e', by simp [processRows, hp, he']⟩

theorem processChunk_eq (st : AggState) (t : String) :
    processChunk st t = processRows st (dataRows t) := by
  unfold processChunk dataRows
  by_cases h : (tableLines t).isEmpty
  · rw [if_pos h]
    rw [List.isEmpty_iff.mp h]
    rfl
  · rw [if_neg h]

theorem aggLoop_ok :
    ∀ (tables : List String) (st st' : AggState),
      aggLoop st tables = Except.ok st' →
      st' = ((tables.flatMap dataRows).filterMap parsedOf).foldl AggState.add st
  | [], st, st', h => by
    simp only [aggLoop] at h
    cases h
    rfl
  | t :: ts, st, st', h => by
    simp only [aggLoop] at h
    cases hc : processChunk st t with
    | error e => rw [hc] at h; cases h
    | ok st2 =>
      rw [hc] at h
      rw [processChunk_eq] at hc
      have h2 := processRows_ok (dataRows t) st st2 hc
      have h3 := aggLoop_ok ts st2 st' h
      rw [h3, h2, List.flatMap_cons, List.filterMap_append, List.foldl_append]

theorem aggLoop_error :
    ∀ (tables : List String) (st : AggState),
      (∃ row ∈ tables.flatMap dataRows, ∃ e, parseRow? row = Except.error e) →
      ∃ e, aggLoop st tables = Except.error e
  | [], _, h => by simp at h
  | t :: ts, st, h => by
    cases hc : processChunk st t with
    | error e => exact ⟨e, by simp [aggLoop, hc]⟩
    | ok st2 =>
      obtain ⟨w, hw, e, he⟩ := h
      rw [List.flatMap_cons, List.mem_append] at hw
      rcases hw with h1 | h1
      · obtain ⟨e', he'⟩ := processRows_error (dataRows t) st ⟨w, h1, e, he⟩
        rw [processChunk_eq] at hc
        rw [hc] at he'
        cases he'
      · obtain ⟨e', he'⟩ := aggLoop_error ts st2 ⟨w, h1, e, he⟩
        exact ⟨e', by simp [aggLoop, hc, he']⟩

/-! ## Summarization pass lemmas -/

theorem summarizeAll_ok_keys (client : String → Except String Summary)
    (mkPrompt : String → String → String) :
    ∀ (m m' : List (String × String)),
      summarizeAll client mkPrompt m = Except.ok m' →
      m'.map Prod.fst = m.map Prod.fst
  | [], m', h => by
    simp only [summarizeAll] at h
    cases h
    rfl
  | (k, txt) :: rest, m', h => by
    simp only [summarizeAll] at h
    cases hc : client (mkPrompt k txt) with
    | error e => rw [hc] at h; cases h
    | ok s =>
      rw [hc] at h
      cases hr : summarizeAll client mkPrompt rest with
      | error e => rw [hr] at h; cases h
      | ok r =>
        rw [hr] at h
        cases h
        have := summarizeAll_ok_keys client mkPrompt rest r hr
        simp [this]

theorem summarizeAll_error (client : String → Except String Summary)
    (mkPrompt : String → String → String) :
    ∀ (m : List (String × String)),
      (∃ p ∈ m, ∃ e, client (mkPrompt p.1 p.2) = Except.error e) →
      ∃ e, summarizeAll client mkPrompt m = Except.error e
  | [], h => by simp at h
  | (k, txt) :: rest, h => by
    cases hc : client (mkPrompt k txt) with
    | error e => exact ⟨e, by simp [summarizeAll, hc]⟩
    | ok s =>
      obtain ⟨p, hp, e, he⟩ := h
      have hprest : p ∈ rest := by
        rcases List.mem_cons.mp hp with h1 | h1
        · rw [h1] at he; simp only at he; rw [he] at hc; cases hc
        · exact h1
      obtain ⟨e', he'⟩ := summarizeAll_error client mkPrompt rest ⟨p, hprest, e, he⟩
      exact ⟨e', by simp [summarizeAll, hc, he']⟩

/-! ## Destructuring a successful `process_long_document` run -/

theorem process_ok_parts (client : String → Except String Summary)
    (tables : List String) (fs : List (String × PyVal))
    (fj fi : List (String × String))
    (h : process_long_document client tables = Except.ok (fs, fj, fi)) :
    ∃ st : AggState, aggState? tables = Except.ok st ∧ fs = finalScoresOf st ∧
      summarizeAll client justPrompt (preJusts st) = Except.ok fj ∧
      summarizeAll client indPrompt (preInds st) = Except.ok fi := by
  cases hagg : aggState? tables with
  | error e =>
    simp only [process_long_document, hagg] at h
    exact Except.noConfusion h
  | ok st =>
    cases hj : summarizeAll client justPrompt (preJusts st) with
    | error e =>
      simp only [process_long_document, hagg, hj] at h
      exact Except.noConfusion h
    | ok fj' =>
      cases hi : summarizeAll client indPrompt (preInds st) with
      | error e =>
        simp only [process_long_document, hagg, hj, hi] at h
        exact Except.noConfusion h
      | ok fi' =>
        simp only [process_long_document, hagg, hj, hi] at h
        injection h with h2
        rw [Prod.mk.injEq, Prod.mk.injEq] at h2
        obtain ⟨e1, e2, e3⟩ := h2
        subst e1; subst e2; subst e3
        exact ⟨st, rfl, rfl, hj, hi⟩

theorem aggState_scores_get (tables : List String) (st : AggState)
    (hst : aggState? tables = Except.ok st) (h : String) :
    alGet st.scores h
      = if (scoresFor h (okRows tables)).isEmpty then none
        else some (scoresFor h (okRows tables)) := by
  have hfold := aggLoop_ok tables ⟨[], [], []⟩ st hst
  rw [hfold, foldl_add_scores]
  exact alGet_foldl_dictAppend_none (fun r => r.hallmark) (fun r => r.score)
    ((tables.flatMap dataRows).filterMap parsedOf) [] h rfl

theorem aggState_justs_get (tables : List String) (st : AggState)
    (hst : aggState? tables = Except.ok st) (h : String) :
    alGet st.justs h
      = if (justsFor h (okRows tables)).isEmpty then none
        else some (justsFor h (okRows tables)) := by
  have hfold := aggLoop_ok tables ⟨[], [], []⟩ st hst
  rw [hfold, foldl_add_justs]
  exact alGet_foldl_dictAppend_none (fun r => r.hallmark)
    (fun r => r.justification)
    ((tables.flatMap dataRows).filterMap parsedOf) [] h rfl

theorem aggState_inds_get (tables : List String) (st : AggState)
    (hst : aggState? tables = Except.ok st) (h : String) :
    alGet st.inds h
      = if (indsFor h (okRows tables)).isEmpty then none
        else some (indsFor h (okRows tables)) := by
  have hfold := aggLoop_ok tables ⟨[], [], []⟩ st hst
  rw [hfold, foldl_add_inds]
  exact alGet_foldl_dictAppend_none (fun r => r.hallmark)
    (fun r => r.indicators)
    ((tables.flatMap dataRows).filterMap parsedOf) [] h rfl

theorem aggState_scores_vals_ne (tables : List String) (st : AggState)
    (hst : aggState? tables = Except.ok st) :
    ∀ p ∈ st.scores, p.2 ≠ [] := by
  have hfold := aggLoop_ok tables ⟨[], [], []⟩ st hst
  rw [hfold, foldl_add_scores]
  exact foldl_dictAppend_vals_ne (fun r => r.hallmark) (fun r => r.score)
    _ [] (by simp)

theorem finalScoresOf_get (tables : List String) (st : AggState)
    (hst : aggState? tables = Except.ok st) (h : String) :
    alGet (finalScoresOf st) h
      = if (scoresFor h (okRows tables)).isEmpty then none
        else some (pyListMax (scoresFor h (okRows tables))) := by
  unfold finalScoresOf
  have hfilter : st.scores.filter (fun p => !p.2.isEmpty) = st.scores :=
    List.filter_eq_self.mpr
      (fun p hp => by simpa using aggState_scores_vals_ne tables st hst p hp)
  rw [hfilter, alGet_map_vals, aggState_scores_get tables st hst h]
  by_cases he : (scoresFor h (okRows tables)).isEmpty
  · rw [if_pos he, if_pos he]; rfl
  · rw [if_neg he, if_neg he]; rfl

/-! ## Claim theorems for the aggregation pipeline -/

/-- Claim C2: for every hallmark that appears in at least one successfully
parsed row across all chunks (i.e. is present in the final score mapping of a
successful `process_long_document` run), the returned score is the maximum of
all scores parsed for that hallmark across all chunks: it is itself one of
the parsed scores and is greatest under the parsed-float value order. -/
theorem C2_max_score_aggregation (client : String → Except String Summary)
    (tables : List String) (fs : List (String × PyVal))
    (fj fi : List (String × String)) (h : String) (q : PyVal)
    (hok : process_long_document client tables = Except.ok (fs, fj, fi))
    (hget : alGet fs h = some q) :
    q ∈ scoresFor h (okRows tables) ∧
      ∀ s ∈ scoresFor h (okRows tables), s.le q := by
  obtain ⟨st, hagg, hfs, _hj, _hi⟩ := process_ok_parts client tables fs fj fi hok
  subst hfs
  rw [finalScoresOf_get tables st hagg h] at hget
  by_cases he : (scoresFor h (okRows tables)).isEmpty
  · rw [if_pos he] at hget; cases hget
  · rw [if_neg he] at hget
    injection hget with hq
    subst hq
    have hne : scoresFor h (okRows tables) ≠ [] := by
      simpa [List.isEmpty_iff] using he
    exact ⟨pyListMax_mem _ hne, pyListMax_ge _⟩

/-- Claim C4: the key set of the final score mapping of a successful
`process_long_document` run is exactly the set of hallmark names that appear
in at least one successfully parsed chunk row; a hallmark appearing in no
parsed row is absent (not present with a default score). -/
theorem C4_omission_invariant (client : String → Except String Summary)
    (tables : List String) (fs : List (String × PyVal))
    (fj fi : List (String × String)) (h : String)
    (hok : process_long_document client tables = Except.ok (fs, fj, fi)) :
    (∃ q, alGet fs h = some q) ↔ ∃ r ∈ okRows tables, r.hallmark = h := by
  obtain ⟨st, hagg, hfs, _hj, _hi⟩ := process_ok_parts client tables fs fj fi hok
  subst hfs
  rw [finalScoresOf_get tables st hagg h]
  by_cases he : (scoresFor h (okRows tables)).isEmpty
  · rw [if_pos he]
    constructor
    · rintro ⟨q, hq⟩; cases hq
    · rintro ⟨r, hr, hh⟩
      exfalso
      have hmem : r.score ∈ scoresFor h (okRows tables) :=
        List.mem_map.mpr ⟨r, List.mem_filter.mpr ⟨hr, beq_iff_eq.mpr hh⟩, rfl⟩
      rw [List.isEmpty_iff.mp he] at hmem
      cases hmem
  · rw [if_neg he]
    constructor
    · intro _
      have hne : scoresFor h (okRows tables) ≠ [] := by
        simpa [List.isEmpty_iff] using he
      obtain ⟨v, hv⟩ := List.exists_mem_of_ne_nil _ hne
      obtain ⟨r, hrf, _⟩ := List.mem_map.mp hv
      obtain ⟨hr, hh⟩ := List.mem_filter.mp hrf
      exact ⟨r, hr, beq_iff_eq.mp hh⟩
    · intro _; exact ⟨_, rfl⟩

/-- Claim C8: for every hallmark, the concatenated justification string and
the concatenated indicators string computed before summarization equal that
hallmark's collected per-chunk strings joined with a single space, in
chunk-processing order. -/
theorem C8_concatenation_order (tables : List String) (st : AggState)
    (h s t : String) (hagg : aggState? tables = Except.ok st)
    (hj : alGet (preJusts st) h = some s)
    (hi : alGet (preInds st) h = some t) :
    s = pyJoin (" ") (justsFor h (okRows tables)) ∧
      t = pyJoin (" ") (indsFor h (okRows tables)) := by
  constructor
  · unfold preJusts at hj
    rw [alGet_map_vals, aggState_justs_get tables st hagg h] at hj
    by_cases he : (justsFor h (okRows tables)).isEmpty
    · rw [if_pos he] at hj; cases hj
    · rw [if_neg he] at hj
      injection hj with hq
      exact hq.symm
  · unfold preInds at hi
    rw [alGet_map_vals, aggState_inds_get tables st hagg h] at hi
    by_cases he : (indsFor h (okRows tables)).isEmpty
    · rw [if_pos he] at hi; cases hi
    · rw [if_neg he] at hi
      injection hi with hq
      exact hq.symm

/-- Claim C10: the three mappings returned by a successful
`process_long_document` run have the same key set: a hallmark name is a key
of the final score mapping if and only if it is a key of the final
justification mapping, and if and only if it is a key of the final
indicators mapping. -/
theorem C10_same_key_sets (client : String → Except String Summary)
    (tables : List String) (fs : List (String × PyVal))
    (fj fi : List (String × String)) (h : String)
    (hok : process_long_document client tables = Except.ok (fs, fj, fi)) :
    ((alGet fs h).isSome ↔ (alGet fj h).isSome) ∧
      ((alGet fs h).isSome ↔ (alGet fi h).isSome) := by
  obtain ⟨st, hagg, hfs, hsj, hsi⟩ := process_ok_parts client tables fs fj fi hok
  subst hfs
  have e1 : (scoresFor h (okRows tables)).isEmpty
      ↔ (okRows tables).filter (fun r => r.hallmark == h) = [] := by
    simp [scoresFor, List.isEmpty_iff]
  have e2 : (justsFor h (okRows tables)).isEmpty
      ↔ (okRows tables).filter (fun r => r.hallmark == h) = [] := by
    simp [justsFor, List.isEmpty_iff]
  have e3 : (indsFor h (okRows tables)).isEmpty
      ↔ (okRows tables).filter (fun r => r.hallmark == h) = [] := by
    simp [indsFor, List.isEmpty_iff]
  have h1 : (alGet (finalScoresOf st) h).isSome
      ↔ ¬(scoresFor h (okRows tables)).isEmpty := by
    rw [finalScoresOf_get tables st hagg h]
    by_cases he : (scoresFor h (okRows tables)).isEmpty <;> simp [he]
  have hkeysJ : (preJusts st).map Prod.fst = st.justs.map Prod.fst := by
    simp [preJusts, List.map_map]
  have hkeysI : (preInds st).map Prod.fst = st.inds.map Prod.fst := by
    simp [preInds, List.map_map]
  have h2 : (alGet fj h).isSome ↔ ¬(justsFor h (okRows tables)).isEmpty := by
    rw [alGet_isSome_iff,
      summarizeAll_ok_keys client justPrompt (preJusts st) fj hsj, hkeysJ,
      ← alGet_isSome_iff, aggState_justs_get tables st hagg h]
    by_cases he : (justsFor h (okRows tables)).isEmpty <;> simp [he]
  have h3 : (alGet fi h).isSome ↔ ¬(indsFor h (okRows tables)).isEmpty := by
    rw [alGet_isSome_iff,
      summarizeAll_ok_keys client indPrompt (preInds st) fi hsi, hkeysI,
      ← alGet_isSome_iff, aggState_inds_get tables st hagg h]
    by_cases he : (indsFor h (okRows tables)).isEmpty <;> simp [he]
  constructor
  · rw [h1, h2, e1, e2]
  · rw [h1, h3, e1, e3]

/-! ## Concrete batches used as witnesses and counterexamples -/

/-- Chunk table scoring hallmark Paradigm Evolution 3.0. -/
def wTable1 : String :=
  "| Hallmark | Score | Justification | Indicators |\n|---|---|---|---|\n| Paradigm Evolution | 3.0 | j1 | i1 |"

/-- Chunk table scoring hallmark Paradigm Evolution 7.5. -/
def wTable2 : String :=
  "| Hallmark | Score | Justification | Indicators |\n|---|---|---|---|\n| Paradigm Evolution | 7.5 | j2 | i2 |"

/-- Evaluation Client that answers every summarization call successfully. -/
def wClientOk : String → Except String Summary :=
  fun _ => Except.ok (Summary.raw ("S"))

/-- Chunk table whose first data row carries the non-numeric score cell N/A,
followed by a well-formed data row. -/
def wTableNA : String :=
  "| Hallmark | Score | Justification | Indicators |\n|---|---|---|---|\n| B | N/A | jb | ib |\n| C | 5.0 | jc | ic |"

/-- Chunk table with two well-formed data rows for hallmarks A and B. -/
def wTableAB : String :=
  "| Hallmark | Score | Justification | Indicators |\n|---|---|---|---|\n| A | 4.0 | ja | ia |\n| B | 5.0 | jb | ib |"

/-- Evaluation Client that fails exactly on the summarization call for
hallmark A's justification and succeeds on every other call. -/
def wClientFailA : String → Except String Summary :=
  fun p =>
    if p = justPrompt ("A") ("ja") then Except.error ("boom")
    else Except.ok (Summary.raw ("S"))

/-- Accumulator state after the two Paradigm Evolution chunks. -/
def wState : AggState :=
  ⟨[("Paradigm Evolution", [⟨3, 0⟩, ⟨75, 1⟩])],
   [("Paradigm Evolution", ["j1", "j2"])],
   [("Paradigm Evolution", ["i1", "i2"])]⟩

/-- Accumulator state after the A/B chunk. -/
def wStateAB : AggState :=
  ⟨[("A", [⟨4, 0⟩]), ("B", [⟨5, 0⟩])],
   [("A", ["ja"]), ("B", ["jb"])],
   [("A", ["ia"]), ("B", ["ib"])]⟩

/-! ## Claim C1 (corrected) -/

/-- Claim C1 counterexample: in the batch `[wTable1, wTableNA]` the rows for
Paradigm Evolution and C parse successfully, yet `process_long_document`
aborts with the N/A row's error and returns no result at all — the N/A row is
not a row-level failure that is skipped while aggregation continues. -/
theorem C1_counterexample :
    process_long_document wClientOk [wTable1, wTableNA]
        = Except.error ("| B | N/A | jb | ib |") ∧
      okRows [wTable1, wTableNA]
        = [⟨"Paradigm Evolution", ⟨3, 0⟩, "j1", "i1"⟩,
           ⟨"C", ⟨5, 0⟩, "jc", "ic"⟩] :=
  ⟨rfl, rfl⟩

/-- Claim C1 (amended): a data row with at least four cells whose score cell
does not parse as a float is not skipped — `float(cols[1])` raises —
so one such row in any chunk makes `process_long_document` abort with an
error, producing no result for any row of the batch.  (Only rows with fewer
than four cells are skipped with aggregation continuing.) -/
theorem C1_amended_bad_row_aborts (client : String → Except String Summary)
    (tables : List String)
    (hbad : ∃ row ∈ rowsOfChunks tables, (rowCells row).length ≥ 4 ∧
      parsePyFloat ((rowCells row).getD 1 "") = none) :
    ∃ e, process_long_document client tables = Except.error e := by
  obtain ⟨row, hrow, hlen, hnone⟩ := hbad
  have herr : parseRow? row = Except.error row := by
    simp only [parseRow?]
    rw [if_pos hlen, hnone]
  obtain ⟨e, he⟩ := aggLoop_error tables ⟨[], [], []⟩ ⟨row, hrow, row, herr⟩
  exact ⟨e, by simp [process_long_document, aggState?, he]⟩

theorem C1_amended_witness :
    (∃ row ∈ rowsOfChunks [wTable1, wTableNA], (rowCells row).length ≥ 4 ∧
        parsePyFloat ((rowCells row).getD 1 "") = none) ∧
      ∃ e, process_long_document wClientOk [wTable1, wTableNA]
        = Except.error e :=
  ⟨by decide,
   C1_amended_bad_row_aborts wClientOk [wTable1, wTableNA] (by decide)⟩

/-! ## Claim C5 (corrected) -/

/-- Claim C5 counterexample: with a client that fails only on hallmark A's
justification summarization, the batch `[wTableAB]` — in which hallmark B
parsed successfully with score 5.0 — makes `process_long_document` return an
error: no final score, justification or indicators are produced for B (or
any hallmark), so a single failed summarization call is not isolated to its
hallmark. -/
theorem C5_counterexample :
    wClientFailA (justPrompt ("A") ("ja")) = Except.error ("boom") ∧
      wClientFailA (justPrompt ("B") ("jb")) = Except.ok (Summary.raw ("S")) ∧
      okRows [wTableAB]
        = [⟨"A", ⟨4, 0⟩, "ja", "ia"⟩, ⟨"B", ⟨5, 0⟩, "jb", "ib"⟩] ∧
      process_long_document wClientFailA [wTableAB]
        = Except.error ("boom") :=
  ⟨rfl, rfl, rfl, rfl⟩

/-- Claim C5 (amended): a failure of the Evaluation Client on any hallmark's
justification or indicators summarization call propagates out of
`process_long_document`: the whole call returns an error and no hallmark's
final score, justification or indicators are produced — failure isolation at
hallmark granularity does not hold. -/
theorem C5_amended_summarization_failure_aborts
    (client : String → Except String Summary) (tables : List String)
    (st : AggState) (hagg : aggState? tables = Except.ok st)
    (hfail : (∃ p ∈ preJusts st, ∃ e,
        client (justPrompt p.1 p.2) = Except.error e) ∨
      (∃ p ∈ preInds st, ∃ e,
        client (indPrompt p.1 p.2) = Except.error e)) :
    ∃ e, process_long_document client tables = Except.error e := by
  rcases hfail with hj | hi
  · obtain ⟨e, he⟩ := summarizeAll_error client justPrompt (preJusts st) hj
    exact ⟨e, by simp [process_long_document, hagg, he]⟩
  · cases hjs : summarizeAll client justPrompt (preJusts st) with
    | error e => exact ⟨e, by simp [process_long_document, hagg, hjs]⟩
    | ok fj =>
      obtain ⟨e, he⟩ := summarizeAll_error client indPrompt (preInds st) hi
      exact ⟨e, by simp [process_long_document, hagg, hjs, he]⟩

theorem C5_amended_witness :
    aggState? [wTableAB] = Except.ok wStateAB ∧
      ((∃ p ∈ preJusts wStateAB, ∃ e,
          wClientFailA (justPrompt p.1 p.2) = Except.error e) ∨
        (∃ p ∈ preInds wStateAB, ∃ e,
          wClientFailA (indPrompt p.1 p.2) = Except.error e)) ∧
      ∃ e, process_long_document wClientFailA [wTableAB] = Except.error e :=
  ⟨rfl, Or.inl ⟨("A", "ja"), by decide, "boom", rfl⟩,
   C5_amended_summarization_failure_aborts wClientFailA [wTableAB] wStateAB
     rfl (Or.inl ⟨("A", "ja"), by decide, "boom", rfl⟩)⟩

/-! ## Witnesses for the aggregation claims -/

theorem C2_witness :
    (⟨75, 1⟩ : PyVal) ∈ scoresFor ("Paradigm Evolution")
        (okRows [wTable1, wTable2]) ∧
      ∀ s ∈ scoresFor ("Paradigm Evolution") (okRows [wTable1, wTable2]),
        s.le ⟨75, 1⟩ :=
  C2_max_score_aggregation wClientOk [wTable1, wTable2]
    [("Paradigm Evolution", ⟨75, 1⟩)] [("Paradigm Evolution", "S")]
    [("Paradigm Evolution", "S")] ("Paradigm Evolution") ⟨75, 1⟩ rfl rfl

theorem C4_witness :
    (∃ q, alGet [("Paradigm Evolution", (⟨75, 1⟩ : PyVal))]
        ("Paradigm Evolution") = some q) ↔
      ∃ r ∈ okRows [wTable1, wTable2], r.hallmark = "Paradigm Evolution" :=
  C4_omission_invariant wClientOk [wTable1, wTable2]
    [("Paradigm Evolution", ⟨75, 1⟩)] [("Paradigm Evolution", "S")]
    [("Paradigm Evolution", "S")] ("Paradigm Evolution") rfl

theorem C8_witness :
    "j1 j2" = pyJoin (" ")
        (justsFor ("Paradigm Evolution") (okRows [wTable1, wTable2])) ∧
      "i1 i2" = pyJoin (" ")
        (indsFor ("Paradigm Evolution") (okRows [wTable1, wTable2])) :=
  C8_concatenation_order [wTable1, wTable2] wState ("Paradigm Evolution")
    ("j1 j2") ("i1 i2") rfl rfl rfl

theorem C10_witness :
    ((alGet [("Paradigm Evolution", (⟨75, 1⟩ : PyVal))]
          ("Paradigm Evolution")).isSome ↔
        (alGet [("Paradigm Evolution", "S")] ("Paradigm Evolution")).isSome) ∧
      ((alGet [("Paradigm Evolution", (⟨75, 1⟩ : PyVal))]
          ("Paradigm Evolution")).isSome ↔
        (alGet [("Paradigm Evolution", "S")] ("Paradigm Evolution")).isSome) :=
  C10_same_key_sets wClientOk [wTable1, wTable2]
    [("Paradigm Evolution", ⟨75, 1⟩)] [("Paradigm Evolution", "S")]
    [("Paradigm Evolution", "S")] ("Paradigm Evolution") rfl

/-! ## Chunker lemmas -/

theorem splitChar_ne_nil (c : Char) : ∀ l : List Char, splitChar c l ≠ []
  | [] => by simp [splitChar]
  | x :: xs => by
    simp only [splitChar]
    cases hs : splitChar c xs with
    | nil => simp
    | cons g gs => by_cases hx : x = c <;> simp [hx]

theorem splitLoop_flatten (tok : String → Nat) (mt : Nat) :
    ∀ (lines current : List String) (tc : Nat),
      (splitLoop tok mt lines current tc).flatten = current ++ lines
  | [], current, tc => by
    simp only [splitLoop]
    by_cases h : current.isEmpty
    · rw [if_pos h, List.isEmpty_iff.mp h]; rfl
    · rw [if_neg h]; simp
  | line :: rest, current, tc => by
    simp only [splitLoop]
    by_cases h : tc + tok line > mt ∧ ¬current.isEmpty = true
    · rw [if_pos h, List.flatten_cons,
        splitLoop_flatten tok mt rest [line] (tok line)]
      simp
    · rw [if_neg h,
        splitLoop_flatten tok mt rest (current ++ [line]) (tc + tok line)]
      simp

theorem splitLoop_groups_ne_nil (tok : String → Nat) (mt : Nat) :
    ∀ (lines current : List String) (tc : Nat) (g : List String),
      g ∈ splitLoop tok mt lines current tc → g ≠ []
  | [], current, tc, g, hg => by
    simp only [splitLoop] at hg
    by_cases h : current.isEmpty
    · rw [if_pos h] at hg; cases hg
    · rw [if_neg h] at hg
      have hc : g = current := by simpa using hg
      rw [hc]
      simpa [List.isEmpty_iff] using h
  | line :: rest, current, tc, g, hg => by
    simp only [splitLoop] at hg
    by_cases h : tc + tok line > mt ∧ ¬current.isEmpty = true
    · rw [if_pos h] at hg
      rcases List.mem_cons.mp hg with h1 | h1
      · rw [h1]
        have := h.2
        simpa [List.isEmpty_iff] using this
      · exact splitLoop_groups_ne_nil tok mt rest [line] (tok line) g h1
    · rw [if_neg h] at hg
      exact splitLoop_groups_ne_nil tok mt rest (current ++ [line])
        (tc + tok line) g hg

theorem pyJoin_append (sep : String) :
    ∀ (a b : List String), a ≠ [] → b ≠ [] →
      pyJoin sep (a ++ b) = pyJoin sep a ++ sep ++ pyJoin sep b
  | [], _, ha, _ => absurd rfl ha
  | [x], b, _, hb => by
    cases b with
    | nil => exact absurd rfl hb
    | cons y ys => rfl
  | x :: x2 :: a', b, _, hb => by
    have h2 : pyJoin sep ((x2 :: a') ++ b)
        = pyJoin sep (x2 :: a') ++ sep ++ pyJoin sep b :=
      pyJoin_append sep (x2 :: a') b (by simp) hb
    calc pyJoin sep ((x :: x2 :: a') ++ b)
        = x ++ sep ++ pyJoin sep ((x2 :: a') ++ b) := rfl
      _ = x ++ sep ++ (pyJoin sep (x2 :: a') ++ sep ++ pyJoin sep b) := by
          rw [h2]
      _ = (x ++ sep ++ pyJoin sep (x2 :: a')) ++ sep ++ pyJoin sep b := by
          simp [String.append_assoc]

theorem pyJoin_map_flatten (sep : String) :
    ∀ gs : List (List String), (∀ g ∈ gs, g ≠ []) →
      pyJoin sep (gs.map (pyJoin sep)) = pyJoin sep gs.flatten
  | [], _ => rfl
  | [g], _ => by
    have h1 : ([g] : List (List String)).flatten = g := by simp
    rw [h1]
    rfl
  | g :: g2 :: gs, hne => by
    have hflat_ne : (g2 :: gs).flatten ≠ [] := by
      rw [List.flatten_cons]
      exact List.append_ne_nil_of_left_ne_nil (hne g2 (by simp)) _
    calc pyJoin sep ((g :: g2 :: gs).map (pyJoin sep))
        = pyJoin sep g ++ sep ++ pyJoin sep ((g2 :: gs).map (pyJoin sep)) := rfl
      _ = pyJoin sep g ++ sep ++ pyJoin sep (g2 :: gs).flatten := by
          rw [pyJoin_map_flatten sep (g2 :: gs)
            (fun g' hg' => hne g' (List.mem_cons_of_mem _ hg'))]
      _ = pyJoin sep (g ++ (g2 :: gs).flatten) := by
          rw [pyJoin_append sep g (g2 :: gs).flatten (hne g (by simp)) hflat_ne]
      _ = pyJoin sep (g :: g2 :: gs).flatten := by
          simp [List.flatten_cons, List.append_assoc]

/-- Character-level counterpart of `pyJoin` with a one-character separator. -/
def joinChar (c : Char) : List (List Char) → List Char
  | [] => []
  | [x] => x
  | x :: y :: rest => x ++ c :: joinChar c (y :: rest)

theorem pyJoin_mk (c : Char) :
    ∀ gs : List (List Char),
      pyJoin (String.mk [c]) (gs.map String.mk) = String.mk (joinChar c gs)
  | [] => rfl
  | [x] => rfl
  | x :: y :: rest => by
    calc pyJoin (String.mk [c]) ((x :: y :: rest).map String.mk)
        = String.mk x ++ String.mk [c]
            ++ pyJoin (String.mk [c]) ((y :: rest).map String.mk) := rfl
      _ = String.mk x ++ String.mk [c]
            ++ String.mk (joinChar c (y :: rest)) := by
          rw [pyJoin_mk c (y :: rest)]
      _ = String.mk (x ++ c :: joinChar c (y :: rest)) := by
          apply String.ext
          simp [String.data_append]
      _ = String.mk (joinChar c (x :: y :: rest)) := rfl

theorem joinChar_splitChar (c : Char) :
    ∀ l : List Char, joinChar c (splitChar c l) = l
  | [] => rfl
  | x :: xs => by
    cases hs : splitChar c xs with
    | nil => exact absurd hs (splitChar_ne_nil c xs)
    | cons g gs =>
      have IH := joinChar_splitChar c xs
      rw [hs] at IH
      by_cases hx : x = c
      · have hsp : splitChar c (x :: xs) = [] :: g :: gs := by
          simp [splitChar, hs, hx]
        rw [hsp]
        show [] ++ c :: joinChar c (g :: gs) = x :: xs
        simp [IH, hx]
      · cases gs with
        | nil =>
          have hsp : splitChar c (x :: xs) = [x :: g] := by
            simp [splitChar, hs, hx]
          rw [hsp]
          show x :: g = x :: xs
          have hg : g = xs := IH
          rw [hg]
        | cons g2 gs2 =>
          have hsp : splitChar c (x :: xs) = (x :: g) :: g2 :: gs2 := by
            simp [splitChar, hs, hx]
          rw [hsp]
          show (x :: g) ++ c :: joinChar c (g2 :: gs2) = x :: xs
          have hg : g ++ c :: joinChar c (g2 :: gs2) = xs := IH
          rw [List.cons_append, hg]

theorem map_mk_data : ∀ g : List String, (g.map String.data).map String.mk = g
  | [] => rfl
  | s :: rest => by
    rw [List.map_cons, List.map_cons, map_mk_data rest]

theorem pyJoin_eq_mk_joinChar (c : Char) (g : List String) :
    pyJoin (String.mk [c]) g = String.mk (joinChar c (g.map String.data)) := by
  conv_lhs => rw [← map_mk_data g]
  rw [pyJoin_mk]

theorem pyJoin_pySplit (c : Char) (s : String) :
    pyJoin (String.mk [c]) (pySplit c s) = s := by
  unfold pySplit
  rw [pyJoin_mk, joinChar_splitChar]

/-- Claim C3: for every input text, token budget, and tokenizer, joining the
blocks returned by `split_text` with the newline separator, in order,
reproduces the original input text exactly. -/
theorem C3_lossless_chunking (tok : String → Nat) (mt : Nat) (text : String) :
    pyJoin ("\n") (split_text tok mt text) = text := by
  unfold split_text
  rw [pyJoin_map_flatten ("\n") _
    (fun g hg => splitLoop_groups_ne_nil tok mt _ [] 0 g hg)]
  rw [splitLoop_flatten]
  rw [List.nil_append]
  exact pyJoin_pySplit '\n' text

theorem splitChar_not_mem (c : Char) :
    ∀ l : List Char, ∀ g ∈ splitChar c l, c ∉ g
  | [] => by
    intro g hg
    simp only [splitChar] at hg
    have : g = [] := by simpa using hg
    simp [this]
  | x :: xs => by
    intro g hg
    cases hs : splitChar c xs with
    | nil => exact absurd hs (splitChar_ne_nil c xs)
    | cons g0 gs =>
      by_cases hx : x = c
      · have hsp : splitChar c (x :: xs) = [] :: g0 :: gs := by
          simp [splitChar, hs, hx]
        rw [hsp] at hg
        rcases List.mem_cons.mp hg with h1 | h1
        · rw [h1]; simp
        · refine splitChar_not_mem c xs g ?_
          rw [hs]; exact h1
      · have hsp : splitChar c (x :: xs) = (x :: g0) :: gs := by
          simp [splitChar, hs, hx]
        rw [hsp] at hg
        rcases List.mem_cons.mp hg with h1 | h1
        · rw [h1]
          intro hc
          rcases List.mem_cons.mp hc with h2 | h2
          · exact hx h2.symm
          · refine splitChar_not_mem c xs g0 ?_ h2
            rw [hs]; exact List.mem_cons_self g0 gs
        · refine splitChar_not_mem c xs g ?_
          rw [hs]; exact List.mem_cons_of_mem g0 h1

theorem splitChar_no_sep (c : Char) :
    ∀ l : List Char, c ∉ l → splitChar c l = [l]
  | [], _ => rfl
  | x :: xs, h => by
    have hx : x ≠ c := fun he => h (he ▸ List.mem_cons_self x xs)
    have hxs : c ∉ xs := fun hm => h (List.mem_cons_of_mem x hm)
    simp [splitChar, splitChar_no_sep c xs hxs, hx]

theorem splitChar_append_sep (c : Char) :
    ∀ (a b : List Char), c ∉ a →
      splitChar c (a ++ c :: b) = a :: splitChar c b
  | [], b, _ => by
    cases hs : splitChar c b with
    | nil => exact absurd hs (splitChar_ne_nil c b)
    | cons g gs => simp [splitChar, hs]
  | z :: a', b, h => by
    have hz : z ≠ c := fun he => h (he ▸ List.mem_cons_self z a')
    have ha' : c ∉ a' := fun hm => h (List.mem_cons_of_mem z hm)
    have IH := splitChar_append_sep c a' b ha'
    simp [splitChar, IH, hz]

theorem splitChar_joinChar (c : Char) :
    ∀ gs : List (List Char), gs ≠ [] → (∀ g ∈ gs, c ∉ g) →
      splitChar c (joinChar c gs) = gs
  | [], h, _ => absurd rfl h
  | [x], _, hsep => by
    show splitChar c x = [x]
    exact splitChar_no_sep c x (hsep x (by simp))
  | x :: y :: gs, _, hsep => by
    show splitChar c (x ++ c :: joinChar c (y :: gs)) = x :: y :: gs
    rw [splitChar_append_sep c x (joinChar c (y :: gs)) (hsep x (by simp))]
    rw [splitChar_joinChar c (y :: gs) (by simp)
      (fun g hg => hsep g (List.mem_cons_of_mem x hg))]

theorem splitLoop_budget (tok : String → Nat) (mt : Nat) :
    ∀ (lines current : List String) (tc : Nat),
      tc = (current.map tok).sum →
      ((current.map tok).sum ≤ mt ∨ ∃ l, current = [l] ∧ tok l > mt) →
      ∀ g ∈ splitLoop tok mt lines current tc,
        ((g.map tok).sum ≤ mt ∨ ∃ l, g = [l] ∧ tok l > mt)
  | [], current, tc, _, hinv, g, hg => by
    simp only [splitLoop] at hg
    by_cases h : current.isEmpty
    · rw [if_pos h] at hg; cases hg
    · rw [if_neg h] at hg
      have hc : g = current := by simpa using hg
      rw [hc]; exact hinv
  | line :: rest, current, tc, htc, hinv, g, hg => by
    simp only [splitLoop] at hg
    by_cases h : tc + tok line > mt ∧ ¬current.isEmpty = true
    · rw [if_pos h] at hg
      rcases List.mem_cons.mp hg with h1 | h1
      · rw [h1]; exact hinv
      · refine splitLoop_budget tok mt rest [line] (tok line) (by simp) ?_ g h1
        by_cases hl : tok line ≤ mt
        · left; simpa using hl
        · right; exact ⟨line, rfl, Nat.lt_of_not_le hl⟩
    · rw [if_neg h] at hg
      refine splitLoop_budget tok mt rest (current ++ [line]) (tc + tok line)
        ?_ ?_ g hg
      · rw [htc]; simp
      · by_cases hcur : current.isEmpty
        · rw [List.isEmpty_iff.mp hcur]
          by_cases hl : tok line ≤ mt
          · left; simpa using hl
          · right; exact ⟨line, rfl, Nat.lt_of_not_le hl⟩
        · left
          have hnotgt : ¬(tc + tok line > mt) := fun hgt => h ⟨hgt, hcur⟩
          have hle : tc + tok line ≤ mt := Nat.le_of_not_lt hnotgt
          rw [htc] at hle
          simpa using hle

/-- Claim C7: every block returned by `split_text` whose token count (the sum
of its lines' token counts, the measure the loop tracks) exceeds the budget
is a single line whose own token count already exceeds the budget; every
other block's token count is at most the budget. -/
theorem C7_budget_respect (tok : String → Nat) (mt : Nat) (text : String)
    (b : String) (hb : b ∈ split_text tok mt text) :
    blockTokens tok b ≤ mt ∨ (pySplit '\n' b = [b] ∧ tok b > mt) := by
  unfold split_text at hb
  obtain ⟨g, hg, hgb⟩ := List.mem_map.mp hb
  have hgne : g ≠ [] := splitLoop_groups_ne_nil tok mt _ [] 0 g hg
  have hnomem : ∀ x ∈ g, '\n' ∉ x.data := by
    intro x hx
    have hxl : x ∈ pySplit '\n' text := by
      have hflat := splitLoop_flatten tok mt (pySplit '\n' text) [] 0
      have hm : x ∈ (splitLoop tok mt (pySplit '\n' text) [] 0).flatten :=
        List.mem_flatten.mpr ⟨g, hg, hx⟩
      rw [hflat] at hm
      simpa using hm
    obtain ⟨d, hd, hdx⟩ := List.mem_map.mp hxl
    rw [← hdx]
    exact splitChar_not_mem '\n' text.data d hd
  have hsplit : pySplit '\n' b = g := by
    rw [← hgb]
    show pySplit '\n' (pyJoin (String.mk ['\n']) g) = g
    rw [pyJoin_eq_mk_joinChar]
    unfold pySplit
    rw [show (String.mk (joinChar '\n' (g.map String.data))).data
        = joinChar '\n' (g.map String.data) from rfl]
    rw [splitChar_joinChar '\n' (g.map String.data)
      (by simpa using hgne)
      (fun d hd => by
        obtain ⟨x, hx, hxd⟩ := List.mem_map.mp hd
        rw [← hxd]
        exact hnomem x hx)]
    exact map_mk_data g
  have hbud := splitLoop_budget tok mt (pySplit '\n' text) [] 0 rfl
    (Or.inl (by simp)) g hg
  rcases hbud with hle | ⟨l, hgl, hl⟩
  · left
    unfold blockTokens
    rw [hsplit]
    exact hle
  · right
    have hbl : b = l := by
      rw [← hgb, hgl]; rfl
    constructor
    · rw [hsplit, hgl, hbl]
    · rw [hbl]; exact hl

theorem C7_witness :
    "ab" ∈ split_text (fun s => s.data.length) 3 "ab\ncd" ∧
      (blockTokens (fun s => s.data.length) ("ab") ≤ 3 ∨
        (pySplit '\n' "ab" = ["ab"] ∧
          (fun s : String => s.data.length) "ab" > 3)) :=
  ⟨by decide, C7_budget_respect (fun s => s.data.length) 3 "ab\ncd" "ab"
    (by decide)⟩

/-! ## Claim C6 (corrected) -/

/-- Chunk table whose only data row has three cells. -/
def wTable3cell : String :=
  "| Hallmark | Score | Justification | Indicators |\n|---|---|---|---|\n| A | 5.0 | j |"

theorem reconcile_eq (N : Nat) (cols : List String) :
    (if cols.length < N then cols ++ List.replicate (N - cols.length) ("")
     else if cols.length > N then cols.take N else cols)
      = cols.take N ++ List.replicate (N - cols.length) ("") := by
  by_cases h1 : cols.length < N
  · rw [if_pos h1, List.take_of_length_le (Nat.le_of_lt h1)]
  · rw [if_neg h1]
    by_cases h2 : cols.length > N
    · rw [if_pos h2, Nat.sub_eq_zero_of_le (Nat.le_of_lt h2)]
      simp
    · rw [if_neg h2]
      have he : cols.length = N :=
        Nat.le_antisymm (Nat.le_of_not_lt h2) (Nat.le_of_not_lt h1)
      rw [List.take_of_length_le (Nat.le_of_eq he), he, Nat.sub_self]
      simp

/-- Claim C6 counterexample: the aggregation loop of `process_long_document`
does not pad a data row with fewer than four cells: the three-cell row for
hallmark A in `wTable3cell` yields no parsed row at all — the run succeeds
with empty final mappings instead of containing a row whose fourth cell is
the empty string. -/
theorem C6_counterexample :
    rowCells ("| A | 5.0 | j |") = ["A", "5.0", "j"] ∧
      parseRow? ("| A | 5.0 | j |") = Except.ok none ∧
      process_long_document wClientOk [wTable3cell]
        = Except.ok ([], [], []) :=
  ⟨rfl, rfl, rfl⟩

/-- Claim C6 (amended): only the Evaluate page's single-document table parser
reconciles rows to the header width — a flushed row equals the raw cells
taken up to the header width, padded with empty strings up to it, with no
error raised; the aggregation loop of `process_long_document` instead skips
any data row with fewer than four cells entirely. -/
theorem C6_amended_pad_truncate :
    (∀ (header buffer row : List String),
      flushRow header buffer = some row →
        row = (rawCells buffer).take header.length ++
          List.replicate (header.length - (rawCells buffer).length) ("")) ∧
      ∀ r : String, (rowCells r).length < 4 → parseRow? r = Except.ok none := by
  constructor
  · intro header buffer row h
    simp only [flushRow] at h
    rw [reconcile_eq header.length (rawCells buffer)] at h
    by_cases hany : ((rawCells buffer).take header.length ++
        List.replicate (header.length - (rawCells buffer).length) ("")).any
          (fun c => !c.data.isEmpty)
    · rw [if_pos hany] at h
      injection h with h2
      exact h2.symm
    · rw [if_neg hany] at h
      cases h
  · intro r hlt
    unfold parseRow?
    rw [if_neg (by omega : ¬((rowCells r).length ≥ 4))]

theorem C6_amended_witness :
    flushRow ["Hallmark", "Score", "Justification", "Indicators"]
        ["| A | 5.0 | j |"] = some ["A", "5.0", "j", ""] ∧
      ["A", "5.0", "j", ""]
        = (rawCells ["| A | 5.0 | j |"]).take 4 ++
          List.replicate (4 - (rawCells ["| A | 5.0 | j |"]).length) ("") ∧
      (rowCells ("| A | 5.0 | j |")).length < 4 ∧
      parseRow? ("| A | 5.0 | j |") = Except.ok none :=
  ⟨by decide,
   C6_amended_pad_truncate.1
     ["Hallmark", "Score", "Justification", "Indicators"]
     ["| A | 5.0 | j |"] ["A", "5.0", "j", ""] (by decide),
   by decide,
   C6_amended_pad_truncate.2 ("| A | 5.0 | j |") (by decide)⟩

/-! ## Claim C9 -/

theorem find?_filter_ne (k selected : String) (hks : k ≠ selected) :
    ∀ m : List (String × CaseRecord),
      (m.filter (fun p => !(p.1 == selected))).find? (fun p => p.1 == k)
        = m.find? (fun p => p.1 == k)
  | [] => rfl
  | p :: ps => by
    by_cases hsel : (p.1 == selected) = true
    · have hpsel : p.1 = selected := beq_iff_eq.mp hsel
      have hpk : ¬((fun q : String × CaseRecord => q.1 == k) p = true) := by
        simp [hpsel]
        exact fun hh => hks hh.symm
      rw [List.filter_cons, if_neg (by simp [hsel])]
      rw [@List.find?_cons_of_neg _ (fun q => q.1 == k) p ps hpk]
      exact find?_filter_ne k selected hks ps
    · rw [List.filter_cons, if_pos (by simp [hsel])]
      by_cases hpk : ((fun q : String × CaseRecord => q.1 == k) p = true)
      · rw [@List.find?_cons_of_pos _ (fun q => q.1 == k) p
          (ps.filter (fun q => !(q.1 == selected))) hpk]
        rw [@List.find?_cons_of_pos _ (fun q => q.1 == k) p ps hpk]
      · rw [@List.find?_cons_of_neg _ (fun q => q.1 == k) p
          (ps.filter (fun q => !(q.1 == selected))) hpk]
        rw [@List.find?_cons_of_neg _ (fun q => q.1 == k) p ps hpk]
        exact find?_filter_ne k selected hks ps

/-- Claim C9: renaming a case in the store changes only the key: the record
now stored under the new name is exactly the record previously stored under
the selected name (its score mapping, table_html and upload_time unchanged),
and the record of every other case name is unchanged. -/
theorem C9_rename_frame (cache : List (String × CaseRecord))
    (selected newName : String) (r : CaseRecord)
    (hne : newName ≠ selected) (hnew : alGet cache newName = none)
    (hold : alGet cache selected = some r) :
    alGet (renameCase cache selected newName) newName = some r ∧
      ∀ k, k ≠ selected → k ≠ newName →
        alGet (renameCase cache selected newName) k = alGet cache k := by
  have hfindnew : cache.find? (fun p => p.1 == newName) = none := by
    cases hf2 : cache.find? (fun p => p.1 == newName) with
    | none => rfl
    | some p =>
      unfold alGet at hnew
      rw [hf2] at hnew
      cases hnew
  unfold renameCase
  rw [if_pos hne, if_neg (by simp [alGet, hfindnew]), hold]
  constructor
  · unfold alGet
    rw [List.find?_append]
    have hf : (cache.filter (fun p => !(p.1 == selected))).find?
        (fun p => p.1 == newName) = none := by
      rw [List.find?_eq_none]
      intro p hp hpk
      have hpc : p ∈ cache := List.mem_of_mem_filter hp
      rw [List.find?_eq_none] at hfindnew
      exact hfindnew p hpc hpk
    rw [hf]
    simp [List.find?]
  · intro k hks hkn
    unfold alGet
    rw [List.find?_append]
    have h2 : ([(newName, r)].find? (fun p => p.1 == k)) = none := by
      have hb : (newName == k) = false :=
        beq_eq_false_iff_ne.mpr (fun hh => hkn hh.symm)
      simp [List.find?, hb]
    rw [h2, find?_filter_ne k selected hks cache]
    cases cache.find? (fun p => p.1 == k) <;> rfl

/-- Case record stored under the renamed key. -/
def wRec1 : CaseRecord := ⟨[("A", ⟨4, 0⟩)], "<table>1", "2024-01-01"⟩

/-- Case record of an unrelated case. -/
def wRec2 : CaseRecord := ⟨[("B", ⟨5, 0⟩)], "<table>2", "2024-01-02"⟩

theorem C9_witness :
    alGet (renameCase [("old", wRec1), ("other", wRec2)] ("old") ("new"))
        ("new") = some wRec1 ∧
      ∀ k, k ≠ "old" → k ≠ "new" →
        alGet (renameCase [("old", wRec1), ("other", wRec2)] ("old") ("new")) k
          = alGet [("old", wRec1), ("other", wRec2)] k :=
  C9_rename_frame [("old", wRec1), ("other", wRec2)] ("old") ("new") wRec1
    (by decide) rfl rfl
